import Mathlib

/-!
Verification of the rotamer sidechain belief-propagation solver
(`src/rotamer.cpp`).  The C++ code is shallowly embedded: machine floats
become exact rationals `ℚ` (with `rcp x` modelled as exact division `1/x`),
dense `VecArrayStorage` / `SimdVecArrayStorage` columns become functions
`ℕ → ℕ → ℚ`, and the `unordered_map` used for edge deduplication becomes an
association list.  The transcendental `logf` appearing only in the free-energy
readout is kept as an explicit function parameter `L : ℚ → ℚ`.
-/

set_option allowUnsafeReducibility true

attribute [local semireducible] Rat.add Rat.mul Rat.div Rat.sub Rat.neg Rat.inv

namespace Rotamer

/-- `UPPER_ROT = 4`: one more than the largest supported rotamer count. -/
def UPPER_ROT : ℕ := 4

/-! ## SimdVecArrayStorage (AoSoA layout) -/

/-- Scalar access index of `SimdVecArrayStorage::operator()`:
`x[(i_elem - i_elem%4)*elem_width + i_comp*4 + i_elem%4]`. -/
def aosoaIndex (elem_width i_comp i_elem : ℕ) : ℕ :=
  (i_elem - i_elem % 4) * elem_width + i_comp * 4 + i_elem % 4

/-- Modelled from the spec: `round_up` (from a header that is not part of the
repository snapshot) rounds its first argument up to the next multiple of the
second; used by the `SimdVecArrayStorage` constructor with `simd_width = 4`. -/
def round_up (n m : ℕ) : ℕ := ((n + m - 1) / m) * m

/-! ## Edge deduplication key -/

/-- The composite key computed by `EdgeHolder::add_to_edge`:
`(id1<<16) + id2` over 32-bit unsigned arithmetic. -/
def edgeKey (id1 id2 : ℕ) : ℕ := (id1 * 2 ^ 16 + id2) % 2 ^ 32

end Rotamer

namespace Rotamer

/-- C9 helper: the AoSoA index written with the element split into its
quad base and lane. -/
theorem aosoaIndex_eq (W c e : ℕ) :
    aosoaIndex W c e = (e / 4) * (W * 4) + c * 4 + e % 4 := by
  unfold aosoaIndex
  have h := Nat.mod_add_div e 4
  have : e - e % 4 = 4 * (e / 4) := by omega
  rw [this]
  ring

end Rotamer

/-- C9: the AoSoA scalar accessor computes `(e - e%4)*W + c*4 + e%4`; for
`c < W` and `e < n_elem` with `n_elem` a multiple of 4 (as produced by the
constructor's round-up) the index stays below `n_elem*W`, and distinct
`(c, e)` pairs give distinct indices, so accesses stay in the buffer and
never alias. -/
theorem C9_aosoa_in_bounds_injective (W E c e c' e' : ℕ)
    (hE : 4 ∣ E) (hc : c < W) (he : e < E) (hc' : c' < W) (he' : e' < E)
    (hne : (c, e) ≠ (c', e')) :
    Rotamer.aosoaIndex W c e < E * W ∧
    Rotamer.aosoaIndex W c e ≠ Rotamer.aosoaIndex W c' e' := by
  obtain ⟨k, hk⟩ := hE
  constructor
  · rw [Rotamer.aosoaIndex_eq]
    have h1 : e % 4 < 4 := Nat.mod_lt _ (by omega)
    have h2 : e / 4 + 1 ≤ k := by omega
    have h3 : e / 4 * (W * 4) + c * 4 + e % 4 < (e / 4 + 1) * (W * 4) := by
      have : c * 4 + e % 4 < W * 4 := by omega
      calc e / 4 * (W * 4) + c * 4 + e % 4
          < e / 4 * (W * 4) + W * 4 := by omega
        _ = (e / 4 + 1) * (W * 4) := by ring
    calc e / 4 * (W * 4) + c * 4 + e % 4
        < (e / 4 + 1) * (W * 4) := h3
      _ ≤ k * (W * 4) := Nat.mul_le_mul_right _ h2
      _ = E * W := by rw [hk]; ring
  · intro habs
    rw [Rotamer.aosoaIndex_eq, Rotamer.aosoaIndex_eq] at habs
    have h1 : e % 4 < 4 := Nat.mod_lt _ (by omega)
    have h1' : e' % 4 < 4 := Nat.mod_lt _ (by omega)
    -- both sides are `4*(quad*W + comp) + lane` with `lane < 4`, `comp < W`
    have hform : 4 * (e / 4 * W + c) + e % 4 = 4 * (e' / 4 * W + c') + e' % 4 := by
      have : e / 4 * (W * 4) + c * 4 = 4 * (e / 4 * W + c) := by ring
      have h2 : e' / 4 * (W * 4) + c' * 4 = 4 * (e' / 4 * W + c') := by ring
      omega
    have hlane : e % 4 = e' % 4 := by omega
    have hquadcomp : e / 4 * W + c = e' / 4 * W + c' := by omega
    have hcomp : c = c' := by
      have hq : (c + e / 4 * W) % W = (c' + e' / 4 * W) % W := by
        rw [Nat.add_comm c, Nat.add_comm c', hquadcomp]
      rwa [Nat.add_mul_mod_self_right, Nat.add_mul_mod_self_right,
        Nat.mod_eq_of_lt hc, Nat.mod_eq_of_lt hc'] at hq
    have hquad : e / 4 = e' / 4 := by
      have hW : 0 < W := by omega
      have := hquadcomp
      rw [hcomp] at this
      have : e / 4 * W = e' / 4 * W := by omega
      exact Nat.eq_of_mul_eq_mul_right hW this
    have : e = e' := by omega
    exact hne (by simp [hcomp, this])

/-- C9 witness. -/
theorem C9_witness :
    Rotamer.aosoaIndex 5 1 6 < 8 * 5 ∧
    Rotamer.aosoaIndex 5 1 6 ≠ Rotamer.aosoaIndex 5 2 6 :=
  C9_aosoa_in_bounds_injective 5 8 1 6 2 6 (by decide) (by decide) (by decide)
    (by decide) (by decide) (by decide)

/-- C10: the dedup key `(id1<<16)+id2 (mod 2^32)` is injective on pairs of
ids below `2^16` — two such pairs get the same key exactly when they are
equal — while a collision exists once an id reaches `2^16`. -/
theorem C10_edge_key_injective_below_2_16 (a1 a2 b1 b2 : ℕ)
    (ha1 : a1 < 2 ^ 16) (ha2 : a2 < 2 ^ 16)
    (hb1 : b1 < 2 ^ 16) (hb2 : b2 < 2 ^ 16) :
    (Rotamer.edgeKey a1 a2 = Rotamer.edgeKey b1 b2 ↔ (a1 = b1 ∧ a2 = b2)) ∧
    (∃ p q : ℕ × ℕ, p ≠ q ∧ Rotamer.edgeKey p.1 p.2 = Rotamer.edgeKey q.1 q.2) := by
  constructor
  · unfold Rotamer.edgeKey
    have hlt : a1 * 2 ^ 16 + a2 < 2 ^ 32 := by
      have : a1 * 2 ^ 16 ≤ (2 ^ 16 - 1) * 2 ^ 16 := by
        exact Nat.mul_le_mul_right _ (by omega)
      omega
    have hlt' : b1 * 2 ^ 16 + b2 < 2 ^ 32 := by
      have : b1 * 2 ^ 16 ≤ (2 ^ 16 - 1) * 2 ^ 16 := by
        exact Nat.mul_le_mul_right _ (by omega)
      omega
    rw [Nat.mod_eq_of_lt hlt, Nat.mod_eq_of_lt hlt']
    constructor
    · intro h
      constructor
      · have := congrArg (· / 2 ^ 16) h
        simpa [Nat.add_mul_div_left, Nat.mul_add_div, Nat.div_eq_of_lt ha2,
          Nat.div_eq_of_lt hb2, Nat.mul_div_cancel] using by omega
      · omega
    · rintro ⟨rfl, rfl⟩; rfl
  · exact ⟨(1, 0), (0, 2 ^ 16), by decide, by decide⟩

/-- C10 witness. -/
theorem C10_witness :
    (Rotamer.edgeKey 7 9 = Rotamer.edgeKey 7 9 ↔ ((7 : ℕ) = 7 ∧ (9 : ℕ) = 9)) ∧
    (∃ p q : ℕ × ℕ, p ≠ q ∧ Rotamer.edgeKey p.1 p.2 = Rotamer.edgeKey q.1 q.2) :=
  C10_edge_key_injective_below_2_16 7 9 7 9 (by decide) (by decide) (by decide)
    (by decide)

namespace Rotamer

/-- Exact model of the reciprocal `rcp` used throughout `rotamer.cpp`
(the C++ version is an approximate SIMD reciprocal; we model it as exact
division, with `1/0 = 0` as in `ℚ`). -/
def rcp (x : ℚ) : ℚ := 1 / x

/-- `max` of the first `R` components of a vector, as computed by the
`max(Vec)` helper (maximum of a nonempty component list; for `R ≥ 1` the
`f 0` seed is one of the components). -/
def vecMax (R : ℕ) (f : ℕ → ℚ) : ℚ := ((List.range R).map f).foldl max (f 0)

/-- `sum` of the first `R` components of a vector. -/
def vecSum (R : ℕ) (f : ℕ → ℚ) : ℚ := ∑ r ∈ Finset.range R, f r

/-- The `1e-10f` guard constant used by the free energies and marginals. -/
def eps : ℚ := 1 / 10 ^ 10

/-- `NodeHolder`: per-alphabet-size store of probabilities and beliefs,
shape `(n_rot, n_elem)`; columns beyond the logical shape model the padding
of the backing storage. -/
structure NodeHolder where
  n_rot : ℕ
  n_elem : ℕ
  prob : ℕ → ℕ → ℚ
  cur_belief : ℕ → ℕ → ℚ
  old_belief : ℕ → ℕ → ℚ

/-- `NodeHolder::reset`: set all `prob` entries to 1. -/
def NodeHolder.reset (nh : NodeHolder) : NodeHolder :=
  { nh with prob := fun _ _ => 1 }

/-- `NodeHolder::swap_beliefs`. -/
def NodeHolder.swap_beliefs (nh : NodeHolder) : NodeHolder :=
  { nh with cur_belief := nh.old_belief, old_belief := nh.cur_belief }

/-- `NodeHolder::finish_belief_update<N_ROT>(damping)`:
`b ← (1-d)·rcp(max b)·b + d·b_old` per element. -/
def NodeHolder.finish_belief_update (R : ℕ) (damping : ℚ) (nh : NodeHolder) :
    NodeHolder :=
  { nh with cur_belief := fun r ne =>
      if r < R ∧ ne < nh.n_elem then
        (1 - damping) * rcp (vecMax R (fun r' => nh.cur_belief r' ne)) *
            nh.cur_belief r ne
          + damping * nh.old_belief r ne
      else nh.cur_belief r ne }

/-- The differences `cur_belief(d,nn) - old_belief(d,nn)` enumerated in the
loop order of `NodeHolder::max_deviation`. -/
def NodeHolder.devList (nh : NodeHolder) : List ℚ :=
  (List.range nh.n_rot).flatMap fun d =>
    (List.range nh.n_elem).map fun nn => nh.cur_belief d nn - nh.old_belief d nn

/-- `NodeHolder::max_deviation`: fold of `max` over all `cur - old`
differences, with a 0-initialized accumulator. -/
def NodeHolder.max_deviation (nh : NodeHolder) : ℚ :=
  nh.devList.foldl max 0

/-- `NodeHolder::calculate_marginals<N_ROT>`: L¹-normalize `cur_belief` in
place (`b ← b·rcp(sum b)` per element). -/
def NodeHolder.calculate_marginals (R : ℕ) (nh : NodeHolder) : NodeHolder :=
  { nh with cur_belief := fun r ne =>
      if r < R ∧ ne < nh.n_elem then
        nh.cur_belief r ne * rcp (vecSum R (fun r' => nh.cur_belief r' ne))
      else nh.cur_belief r ne }

/-- `NodeHolder::node_free_energy<N_ROT>(nn)` with the transcendental
`logf` kept as the explicit parameter `L`. -/
def NodeHolder.node_free_energy (R : ℕ) (L : ℚ → ℚ) (nh : NodeHolder)
    (nn : ℕ) : ℚ :=
  let b := fun r =>
    nh.cur_belief r nn * rcp (vecSum R (fun r' => nh.cur_belief r' nn))
  ∑ no ∈ Finset.range R, b no * L ((eps + b no) * rcp (eps + nh.prob no nn))

end Rotamer

namespace Rotamer

/-- `EdgeHolder::EdgeLoc`: `(edge_num, dim, ne)` back-reference into the
interaction graph's edge list. -/
structure EdgeLoc where
  edge_num : ℕ
  dim : ℕ
  ne : ℕ

/-- `EdgeHolder`: pair-potential tables of width `n_rot1*n_rot2`, split edge
beliefs of width `n_rot1+n_rot2`, converged marginals, endpoint indices, the
dedup map (an association list standing for the `unordered_map`), and the
`edge_loc` back-references. -/
structure EdgeHolder where
  n_rot1 : ℕ
  n_rot2 : ℕ
  n_edge : ℕ
  prob : ℕ → ℕ → ℚ
  cur_belief : ℕ → ℕ → ℚ
  old_belief : ℕ → ℕ → ℚ
  marginal : ℕ → ℕ → ℚ
  edge_indices1 : ℕ → ℕ
  edge_indices2 : ℕ → ℕ
  nodes_to_edge : List (ℕ × ℕ)
  edge_loc : List EdgeLoc

/-- `EdgeHolder::reset`: clear `n_edge`, the dedup map and `edge_loc`
(`prob` keeps its previous contents, exactly as in the source). -/
def EdgeHolder.reset (eh : EdgeHolder) : EdgeHolder :=
  { eh with n_edge := 0, nodes_to_edge := [], edge_loc := [] }

/-- `EdgeHolder::swap_beliefs`. -/
def EdgeHolder.swap_beliefs (eh : EdgeHolder) : EdgeHolder :=
  { eh with cur_belief := eh.old_belief, old_belief := eh.cur_belief }

/-- One `add_to_edge` call's arguments:
`(ne, prob_val, id1, rot1, id2, rot2)`. -/
structure AddCall where
  ne : ℕ
  prob_val : ℚ
  id1 : ℕ
  rot1 : ℕ
  id2 : ℕ
  rot2 : ℕ

/-- `EdgeHolder::add_to_edge`: look the pair key up in the dedup map; on a
miss allocate slot `n_edge`, record the endpoint ids and set all
`n_rot1*n_rot2` probability entries of the new slot to 1; then multiply
entry `rot1*n_rot2+rot2` by `prob_val` and append to `edge_loc`. -/
def EdgeHolder.add_to_edge (eh : EdgeHolder) (c : AddCall) : EdgeHolder :=
  match eh.nodes_to_edge.lookup (edgeKey c.id1 c.id2) with
  | some idx =>
      { eh with
        prob := fun j' i' =>
          if j' = c.rot1 * eh.n_rot2 + c.rot2 ∧ i' = idx then
            eh.prob j' i' * c.prob_val
          else eh.prob j' i',
        edge_loc := eh.edge_loc ++ [⟨c.ne, c.rot1 * eh.n_rot2 + c.rot2, idx⟩] }
  | none =>
      { eh with
        n_edge := eh.n_edge + 1,
        nodes_to_edge := (edgeKey c.id1 c.id2, eh.n_edge) :: eh.nodes_to_edge,
        edge_indices1 := Function.update eh.edge_indices1 eh.n_edge c.id1,
        edge_indices2 := Function.update eh.edge_indices2 eh.n_edge c.id2,
        prob := fun j' i' =>
          if j' = c.rot1 * eh.n_rot2 + c.rot2 ∧ i' = eh.n_edge then
            (if i' = eh.n_edge ∧ j' < eh.n_rot1 * eh.n_rot2 then 1
              else eh.prob j' i') * c.prob_val
          else if i' = eh.n_edge ∧ j' < eh.n_rot1 * eh.n_rot2 then 1
            else eh.prob j' i',
        edge_loc := eh.edge_loc ++ [⟨c.ne, c.rot1 * eh.n_rot2 + c.rot2, eh.n_edge⟩] }

/-- A sequence of `add_to_edge` calls applied in order. -/
def EdgeHolder.run_adds (eh : EdgeHolder) (cs : List AddCall) : EdgeHolder :=
  cs.foldl EdgeHolder.add_to_edge eh

/-- `EdgeHolder::move_edge_prob_to_node2` (used when `n_rot1 = 1`): fold each
edge's probability column into `nodes2.prob` at the second endpoint. -/
def EdgeHolder.move_edge_prob_to_node2 (eh : EdgeHolder) (nodes2 : NodeHolder) :
    NodeHolder :=
  (List.range eh.n_edge).foldl
    (fun nh ne =>
      { nh with prob := fun no nr =>
          if nr = eh.edge_indices2 ne ∧ no < eh.n_rot2 then
            nh.prob no nr * eh.prob no ne
          else nh.prob no nr })
    nodes2

/-- The differences `cur_belief(d,nn) - old_belief(d,nn)` enumerated in the
loop order of `EdgeHolder::max_deviation`. -/
def EdgeHolder.devList (eh : EdgeHolder) : List ℚ :=
  (List.range (eh.n_rot1 + eh.n_rot2)).flatMap fun d =>
    (List.range eh.n_edge).map fun nn => eh.cur_belief d nn - eh.old_belief d nn

/-- `EdgeHolder::max_deviation`. -/
def EdgeHolder.max_deviation (eh : EdgeHolder) : ℚ :=
  eh.devList.foldl max 0

end Rotamer

namespace Rotamer

/-- The cavity message toward endpoint 1 in `update_beliefs` before
rescaling: `left_multiply_matrix(ep, old_node_belief2 * vec_rcp(old_edge_belief2))`,
i.e. the `R1×R2` matrix `prob[*,ne]` applied to the componentwise quotient
of the old node-2 belief by the second half of the old edge belief. -/
def cavityMsg1 (R1 R2 : ℕ) (nh2 : NodeHolder) (eh : EdgeHolder) (ne : ℕ) :
    ℕ → ℚ := fun r =>
  ∑ c ∈ Finset.range R2,
    eh.prob (r * R2 + c) ne *
      (nh2.old_belief c (eh.edge_indices2 ne) * rcp (eh.old_belief (R1 + c) ne))

/-- The cavity message toward endpoint 2:
`right_multiply_matrix(old_node_belief1 * vec_rcp(old_edge_belief1), ep)`. -/
def cavityMsg2 (R1 R2 : ℕ) (nh1 : NodeHolder) (eh : EdgeHolder) (ne : ℕ) :
    ℕ → ℚ := fun c =>
  ∑ r ∈ Finset.range R1,
    (nh1.old_belief r (eh.edge_indices1 ne) * rcp (eh.old_belief r ne)) *
      eh.prob (r * R2 + c) ne

/-- `cur_edge_belief1` after the max-rescaling of step 5. -/
def rescaledMsg1 (R1 R2 : ℕ) (nh2 : NodeHolder) (eh : EdgeHolder) (ne : ℕ) :
    ℕ → ℚ := fun r =>
  cavityMsg1 R1 R2 nh2 eh ne r * rcp (vecMax R1 (cavityMsg1 R1 R2 nh2 eh ne))

/-- `cur_edge_belief2` after the max-rescaling of step 5. -/
def rescaledMsg2 (R1 R2 : ℕ) (nh1 : NodeHolder) (eh : EdgeHolder) (ne : ℕ) :
    ℕ → ℚ := fun c =>
  cavityMsg2 R1 R2 nh1 eh ne c * rcp (vecMax R2 (cavityMsg2 R1 R2 nh1 eh ne))

/-- The vector `neb` stored into `cur_belief[*,ne]` by
`EdgeHolder::update_beliefs`: the source first computes
`neb = damping*old_belief[*,ne]` and then assigns (not accumulates)
`neb[i] = (1-damping)*cur_edge_belief1[i]` for `i < R1` and
`neb[i+R1] = (1-damping)*cur_edge_belief2[i]` for `i < R2`, so all
`R1+R2` stored components are plain assignments that overwrite the
damping term. -/
def newEdgeBelief (R1 R2 : ℕ) (damping : ℚ) (nh1 nh2 : NodeHolder)
    (eh : EdgeHolder) (ne : ℕ) : ℕ → ℚ := fun i =>
  if i < R1 then (1 - damping) * rescaledMsg1 R1 R2 nh2 eh ne i
  else if i < R1 + R2 then (1 - damping) * rescaledMsg2 R1 R2 nh1 eh ne (i - R1)
  else damping * eh.old_belief i ne

/-- Modelled from the spec: `approx_normalized` (declared in a vector-math
header outside the repository snapshot) divides a vector by a cheap
rescaler, the reciprocal of its max component. -/
def approxNormalized (R : ℕ) (v : ℕ → ℚ) : ℕ → ℚ := fun r =>
  v r * rcp (vecMax R v)

/-- The body of the per-edge loop of `update_beliefs` for one edge `ne`,
threading the single `NodeHolder` that is both endpoints of an
`edges33`-style holder: store the new edge belief, then update the node
beliefs at `n1` and (sequentially after it) at `n2`. -/
def edgeUpdateOne (R1 R2 : ℕ) (damping : ℚ)
    (st : NodeHolder × EdgeHolder) (ne : ℕ) : NodeHolder × EdgeHolder :=
  let nh := st.1
  let eh := st.2
  let n1 := eh.edge_indices1 ne
  let n2 := eh.edge_indices2 ne
  let ceb1 := rescaledMsg1 R1 R2 nh eh ne
  let ceb2 := rescaledMsg2 R1 R2 nh eh ne
  let eh' := { eh with cur_belief := fun i e =>
      if e = ne ∧ i < R1 + R2 then newEdgeBelief R1 R2 damping nh nh eh ne i
      else eh.cur_belief i e }
  let v1 := fun r => ceb1 r * nh.cur_belief r n1
  let nh1 := { nh with cur_belief := fun r e =>
      if e = n1 ∧ r < R1 then approxNormalized R1 v1 r
      else nh.cur_belief r e }
  let v2 := fun c => ceb2 c * nh1.cur_belief c n2
  let nh2 := { nh1 with cur_belief := fun c e =>
      if e = n2 ∧ c < R2 then approxNormalized R2 v2 c
      else nh1.cur_belief c e }
  (nh2, eh')

/-- `EdgeHolder::update_beliefs<R1,R2>(damping)` for a holder whose two
endpoints live in the same `NodeHolder` (the `edges33` case): one
sequential in-place sweep over the edges in ascending order. -/
def EdgeHolder.update_beliefs (R1 R2 : ℕ) (damping : ℚ) (nh : NodeHolder)
    (eh : EdgeHolder) : NodeHolder × EdgeHolder :=
  (List.range eh.n_edge).foldl (edgeUpdateOne R1 R2 damping) (nh, eh)

/-- The unnormalized joint table `p` built by
`EdgeHolder::calculate_marginals<R1,R2>` for edge `ne`: the potential column
multiplied, entry by entry in loop order, by the self-interaction-corrected
endpoint beliefs `bc1[no1]*bc2[no2]` at flat index `no1*R1+no2` (the source
uses `N_ROT1`, not `N_ROT2`, in this flat index). -/
def edgeMarginalPre (R1 R2 : ℕ) (nh1 nh2 : NodeHolder) (eh : EdgeHolder)
    (ne : ℕ) : ℕ → ℚ :=
  let b1 := fun r => nh1.cur_belief r (eh.edge_indices1 ne)
  let b2 := fun c => nh2.cur_belief c (eh.edge_indices2 ne)
  let b := fun i => eh.cur_belief i ne
  let bc1 := fun r => b1 r * rcp (eps + b r)
  let bc2 := fun c => b2 c * rcp (eps + b (R1 + c))
  ((List.range R1).flatMap fun no1 =>
      (List.range R2).map fun no2 => (no1, no2)).foldl
    (fun p pq =>
      Function.update p (pq.1 * R1 + pq.2)
        (p (pq.1 * R1 + pq.2) * (bc1 pq.1 * bc2 pq.2)))
    (fun j => eh.prob j ne)

/-- `EdgeHolder::calculate_marginals<R1,R2>`: store the L¹-normalized
joint table into `marginal[*,ne]` for each edge. -/
def EdgeHolder.calculate_marginals (R1 R2 : ℕ) (nh1 nh2 : NodeHolder)
    (eh : EdgeHolder) : EdgeHolder :=
  { eh with marginal := fun j e =>
      if e < eh.n_edge ∧ j < R1 * R2 then
        edgeMarginalPre R1 R2 nh1 nh2 eh e j *
          rcp (vecSum (R1 * R2) (edgeMarginalPre R1 R2 nh1 nh2 eh e))
      else eh.marginal j e }

/-- `EdgeHolder::edge_free_energy<R1,R2>(ne)` with `logf` kept as the
parameter `L` (the source's flat index is `no1*N_ROT1 + no2`). -/
def EdgeHolder.edge_free_energy (R1 R2 : ℕ) (L : ℚ → ℚ) (nh1 nh2 : NodeHolder)
    (eh : EdgeHolder) (ne : ℕ) : ℚ :=
  let b1 := fun r => nh1.cur_belief r (eh.edge_indices1 ne)
  let b2 := fun c => nh2.cur_belief c (eh.edge_indices2 ne)
  ∑ no1 ∈ Finset.range R1, ∑ no2 ∈ Finset.range R2,
    eh.marginal (no1 * R1 + no2) ne *
      L ((eps + eh.marginal (no1 * R1 + no2) ne) *
        rcp (eps + eh.prob (no1 * R1 + no2) ne * b1 no1 * b2 no2))

end Rotamer

namespace Rotamer

/-- The `RotamerSidechain` holders relevant to the marginal/energy/derivative
claims (edge holders for the `(1,1)`, `(1,3)` and `(3,3)` alphabet pairs). -/
structure Solver where
  nodes1 : NodeHolder
  nodes3 : NodeHolder
  edges11 : EdgeHolder
  edges13 : EdgeHolder
  edges33 : EdgeHolder

/-- `RotamerSidechain::calculate_energy_from_marginals` (with `logf` as `L`):
node free energies of `nodes1` and `nodes3`, `-log` of the single entry of
each `edges11` edge, and the `<3,3>` edge free energy of each `edges33` edge
(whose two endpoints are `nodes3`). `edges13` is not read. -/
def calculate_energy_from_marginals (L : ℚ → ℚ) (s : Solver) : ℚ :=
  (∑ nn ∈ Finset.range s.nodes1.n_elem, s.nodes1.node_free_energy 1 L nn)
  + (∑ nn ∈ Finset.range s.nodes3.n_elem, s.nodes3.node_free_energy 3 L nn)
  + (∑ ne ∈ Finset.range s.edges11.n_edge, -L (s.edges11.prob 0 ne))
  + (∑ ne ∈ Finset.range s.edges33.n_edge,
      s.edges33.edge_free_energy 3 3 L s.nodes3 s.nodes3 ne)

/-- The sensitivity-writing part of `RotamerSidechain::propagate_derivatives`:
starting from the interaction graph's current `edge_sensitivity` array, run
the three loops in source order — every `edges11.edge_loc` entry writes `1`,
every `edges13.edge_loc` entry writes
`nodes3.cur_belief(dim, edges13.edge_indices2[ne])`, and every
`edges33.edge_loc` entry writes `edges33.marginal(dim, ne)`. -/
def propagate_sensitivities (s : Solver) (sens : ℕ → ℚ) : ℕ → ℚ :=
  let f1 := s.edges11.edge_loc.foldl
    (fun g el => Function.update g el.edge_num 1) sens
  let f2 := s.edges13.edge_loc.foldl
    (fun g el => Function.update g el.edge_num
      (s.nodes3.cur_belief el.dim (s.edges13.edge_indices2 el.ne))) f1
  s.edges33.edge_loc.foldl
    (fun g el => Function.update g el.edge_num
      (s.edges33.marginal el.dim el.ne)) f2

/-- `copy(nodes3.prob, nodes3.cur_belief)`: overwrite the current belief
array with the probability array. -/
def copyProbToCur (nh : NodeHolder) : NodeHolder :=
  { nh with cur_belief := nh.prob }

/-- `RotamerSidechain::calculate_new_beliefs(damping)`: copy `nodes3.prob`
into `nodes3.cur_belief`, run the `edges33` BP sweep, finish the node belief
update. -/
def calculate_new_beliefs (damping : ℚ) (st : NodeHolder × EdgeHolder) :
    NodeHolder × EdgeHolder :=
  let st' := EdgeHolder.update_beliefs 3 3 damping (copyProbToCur st.1) st.2
  (st'.1.finish_belief_update 3 damping, st'.2)

/-- One iteration of the inner `for(j)` loop of `solve_for_marginals`:
swap node and edge beliefs, then `calculate_new_beliefs(damping)`. -/
def sweepOnce (damping : ℚ) (st : NodeHolder × EdgeHolder) :
    NodeHolder × EdgeHolder :=
  calculate_new_beliefs damping (st.1.swap_beliefs, st.2.swap_beliefs)

/-- `iteration_chunk_size` consecutive sweeps. -/
def chunkSweeps (chunk : ℕ) (damping : ℚ) (st : NodeHolder × EdgeHolder) :
    NodeHolder × EdgeHolder :=
  (List.range chunk).foldl (fun s _ => sweepOnce damping s) st

/-- The outer convergence loop of `solve_for_marginals`, written with an
explicit fuel so the model is total: while `max_deviation > tol` and
`iter < max_iter`, run a chunk of sweeps, recompute the deviation, and
advance `iter` by `iteration_chunk_size`.  `none` means the fuel ran out
(the C++ loop would still be running). -/
def solveLoop (tol damping : ℚ) (max_iter chunk : ℕ) :
    ℕ → NodeHolder × EdgeHolder → ℕ → ℚ →
    Option (ℕ × ℚ × (NodeHolder × EdgeHolder))
  | 0, _, _, _ => none
  | fuel + 1, st, iter, dev =>
    if tol < dev ∧ iter < max_iter then
      let st' := chunkSweeps chunk damping st
      let dev' := max st'.1.max_deviation st'.2.max_deviation
      solveLoop tol damping max_iter chunk fuel st' (iter + chunk) dev'
    else some (iter, dev, st)

/-- Seeding step of `solve_for_marginals`: `old_belief ← prob` on a node
holder (over its full `(n_rot, n_elem)` shape). -/
def seedNode (nh : NodeHolder) : NodeHolder :=
  { nh with old_belief := fun no ne =>
      if no < nh.n_rot ∧ ne < nh.n_elem then nh.prob no ne
      else nh.old_belief no ne }

/-- What `RotamerSidechain::solve_for_marginals` returns, plus the holders
it leaves behind. -/
structure SolveResult where
  iter : ℕ
  dev : ℚ
  nodes3 : NodeHolder
  edges33 : EdgeHolder

/-- `RotamerSidechain::solve_for_marginals` on the `nodes3`/`edges33` state
(`nodes1` is also seeded by the source but never touched afterwards): seed
old beliefs, warm up with damping `0.1`, swap the node beliefs once, run the
convergence loop (with fuel `max_iter + 1`, which suffices whenever
`iteration_chunk_size ≥ 1`), then convert beliefs to marginals and return
`(iter, max_deviation)` together with the final holders. -/
def solve_for_marginals (damping tol : ℚ) (max_iter chunk : ℕ)
    (n3 : NodeHolder) (e33 : EdgeHolder) : Option SolveResult :=
  let n3a := seedNode n3
  let e33a := { e33 with old_belief := fun _ _ => (1 : ℚ) }
  let st0 := calculate_new_beliefs (1 / 10) (n3a, e33a)
  let st1 := (st0.1.swap_beliefs, st0.2)
  match solveLoop tol damping max_iter chunk (max_iter + 1) st1 0 (10 ^ 10) with
  | none => none
  | some (iter, dev, st) =>
      some ⟨iter, dev, st.1.calculate_marginals 3,
        st.2.calculate_marginals 3 3 st.1 st.1⟩

end Rotamer

namespace Rotamer

/-- Modelled from the spec: the packed bead id carries three sub-fields of
`n_bit_rotamer` bits each (the constant itself lives in a header outside the
repository snapshot, so the bit width is kept as the parameter `nbit`);
least-significant field first: `rot`, then `n_rot`, then the residue index. -/
def decodeRot (nbit id : ℕ) : ℕ := id % 2 ^ nbit

/-- Second packed field: the rotamer-alphabet size `n_rot`. -/
def decodeNRot (nbit id : ℕ) : ℕ := id / 2 ^ nbit % 2 ^ nbit

/-- Remaining bits after shifting out `rot` and `n_rot`: the residue index. -/
def decodeResidue (nbit id : ℕ) : ℕ := id / 2 ^ nbit / 2 ^ nbit

/-- `calculate_n_elem`: first pass over all bead ids throws
`invalid rotamer number` if any decodes to `rot ≥ n_rot`; the pass over the
collected `n_rot` classes throws `invalid rotamer count` if any class is
`≥ UPPER_ROT`; otherwise slot `k` of the result is the number of distinct
residue indices among beads with `n_rot = k`. -/
def calculate_n_elem (nbit : ℕ) (ids : List ℕ) : Except String (List ℕ) :=
  if ∃ id ∈ ids, decodeNRot nbit id ≤ decodeRot nbit id then
    .error "invalid rotamer number"
  else if ∃ id ∈ ids, UPPER_ROT ≤ decodeNRot nbit id then
    .error "invalid rotamer count"
  else
    .ok ((List.range UPPER_ROT).map fun k =>
      ((ids.filter fun id => decodeNRot nbit id = k).map
        (decodeResidue nbit)).dedup.length)

/-- `node_holders_matrix`: slot 1 holds `nodes1`, slot 3 holds `nodes3`,
every other slot is a null pointer (`none`). -/
def node_holders_matrix (s : Solver) (n_rot : ℕ) : Option NodeHolder :=
  if n_rot = 1 then some s.nodes1
  else if n_rot = 3 then some s.nodes3
  else none

/-- Write a node holder back into its `node_holders_matrix` slot. -/
def setHolder (s : Solver) (n_rot : ℕ) (nh : NodeHolder) : Solver :=
  if n_rot = 1 then { s with nodes1 := nh }
  else if n_rot = 3 then { s with nodes3 := nh }
  else s

/-- The one-body bead loop of `RotamerSidechain::fill_holders`, the part
that touches `node_holders_matrix[n_rot]`: each bead `(id, energy)`
multiplies `node_holders_matrix[n_rot]->prob(rot, residue)` by
`expf(-energy)` (with `expf` kept as the parameter `E`).  When the slot is a
null pointer the C++ dereferences it — undefined behaviour, modelled as
`none`; no exception is thrown on this path. -/
def fill_holders_beads (E : ℚ → ℚ) (nbit : ℕ) (beads : List (ℕ × ℚ))
    (s : Solver) : Option Solver :=
  beads.foldlM
    (fun s bead =>
      let rot := decodeRot nbit bead.1
      let n_rot := decodeNRot nbit bead.1
      let res := decodeResidue nbit bead.1
      match node_holders_matrix s n_rot with
      | none => none
      | some nh =>
        some (setHolder s n_rot
          { nh with prob := fun r i =>
              if r = rot ∧ i = res then nh.prob r i * E (-bead.2)
              else nh.prob r i }))
    s

end Rotamer

namespace Rotamer

/-- The accumulator never decreases under a `foldl max`. -/
theorem init_le_foldl_max (l : List ℚ) (a : ℚ) : a ≤ l.foldl max a := by
  induction l generalizing a with
  | nil => exact le_refl a
  | cons b t ih => exact le_trans (le_max_left a b) (ih (max a b))

/-- Every list member is below its `foldl max`. -/
theorem mem_le_foldl_max (l : List ℚ) (a x : ℚ) (hx : x ∈ l) :
    x ≤ l.foldl max a := by
  induction l generalizing a with
  | nil => cases hx
  | cons b t ih =>
    rw [List.foldl_cons]
    rcases List.mem_cons.mp hx with h | h
    · subst h
      exact le_trans (le_max_right a x) (init_le_foldl_max t (max a x))
    · exact ih (max a b) h

/-- A `foldl max` is the accumulator or one of the members. -/
theorem foldl_max_cases (l : List ℚ) (a : ℚ) :
    l.foldl max a = a ∨ l.foldl max a ∈ l := by
  induction l generalizing a with
  | nil => exact Or.inl rfl
  | cons b t ih =>
    rcases ih (max a b) with h | h
    · rcases max_choice a b with hab | hab
      · exact Or.inl (by rw [List.foldl_cons, h, hab])
      · exact Or.inr (by rw [List.foldl_cons, h, hab]; exact List.mem_cons_self b t)
    · exact Or.inr (List.mem_cons_of_mem b h)

/-- Membership in a node holder's deviation list. -/
theorem mem_devList_node (nh : NodeHolder) (x : ℚ) :
    x ∈ nh.devList ↔ ∃ d < nh.n_rot, ∃ nn < nh.n_elem,
      x = nh.cur_belief d nn - nh.old_belief d nn := by
  simp only [NodeHolder.devList, List.mem_flatMap, List.mem_map, List.mem_range]
  constructor
  · rintro ⟨d, hd, nn, hnn, rfl⟩; exact ⟨d, hd, nn, hnn, rfl⟩
  · rintro ⟨d, hd, nn, hnn, rfl⟩; exact ⟨d, hd, nn, hnn, rfl⟩

/-- Membership in an edge holder's deviation list. -/
theorem mem_devList_edge (eh : EdgeHolder) (x : ℚ) :
    x ∈ eh.devList ↔ ∃ d < eh.n_rot1 + eh.n_rot2, ∃ nn < eh.n_edge,
      x = eh.cur_belief d nn - eh.old_belief d nn := by
  simp only [EdgeHolder.devList, List.mem_flatMap, List.mem_map, List.mem_range]
  constructor
  · rintro ⟨d, hd, nn, hnn, rfl⟩; exact ⟨d, hd, nn, hnn, rfl⟩
  · rintro ⟨d, hd, nn, hnn, rfl⟩; exact ⟨d, hd, nn, hnn, rfl⟩

end Rotamer

/-- C8: `max_deviation` (for both holder kinds) equals
`max(0, max(cur_belief − old_belief))`: it is nonnegative, it bounds every
signed difference `cur − old` over the in-range components, and it is either
0 (everything decreased or stayed) or one of those signed differences — so a
component whose belief decreased contributes its signed value, never its
magnitude. -/
theorem C8_max_deviation_signed_clamped
    (nh : Rotamer.NodeHolder) (eh : Rotamer.EdgeHolder) :
    (0 ≤ nh.max_deviation ∧
      (∀ d < nh.n_rot, ∀ nn < nh.n_elem,
        nh.cur_belief d nn - nh.old_belief d nn ≤ nh.max_deviation) ∧
      (nh.max_deviation = 0 ∨ ∃ d < nh.n_rot, ∃ nn < nh.n_elem,
        nh.max_deviation = nh.cur_belief d nn - nh.old_belief d nn)) ∧
    (0 ≤ eh.max_deviation ∧
      (∀ d < eh.n_rot1 + eh.n_rot2, ∀ nn < eh.n_edge,
        eh.cur_belief d nn - eh.old_belief d nn ≤ eh.max_deviation) ∧
      (eh.max_deviation = 0 ∨ ∃ d < eh.n_rot1 + eh.n_rot2, ∃ nn < eh.n_edge,
        eh.max_deviation = eh.cur_belief d nn - eh.old_belief d nn)) := by
  constructor
  · refine ⟨Rotamer.init_le_foldl_max _ 0, ?_, ?_⟩
    · intro d hd nn hnn
      exact Rotamer.mem_le_foldl_max _ 0 _
        ((Rotamer.mem_devList_node nh _).mpr ⟨d, hd, nn, hnn, rfl⟩)
    · rcases Rotamer.foldl_max_cases nh.devList 0 with h | h
      · exact Or.inl h
      · exact Or.inr ((Rotamer.mem_devList_node nh _).mp h)
  · refine ⟨Rotamer.init_le_foldl_max _ 0, ?_, ?_⟩
    · intro d hd nn hnn
      exact Rotamer.mem_le_foldl_max _ 0 _
        ((Rotamer.mem_devList_edge eh _).mpr ⟨d, hd, nn, hnn, rfl⟩)
    · rcases Rotamer.foldl_max_cases eh.devList 0 with h | h
      · exact Or.inl h
      · exact Or.inr ((Rotamer.mem_devList_edge eh _).mp h)

namespace Rotamer

/-- A fold of `Function.update`s leaves keys it never writes unchanged. -/
theorem foldl_update_not_mem (l : List EdgeLoc) (v : EdgeLoc → ℚ)
    (g : ℕ → ℚ) (k : ℕ) (hk : ∀ el ∈ l, el.edge_num ≠ k) :
    (l.foldl (fun g el => Function.update g el.edge_num (v el)) g) k = g k := by
  induction l generalizing g with
  | nil => rfl
  | cons b t ih =>
    rw [List.foldl_cons, ih _ fun el hel => hk el (List.mem_cons_of_mem b hel)]
    exact Function.update_noteq (Ne.symm (hk b (List.mem_cons_self b t))) _ _

/-- With pairwise-distinct keys, a fold of `Function.update`s sends each
entry's key to that entry's value. -/
theorem foldl_update_mem (l : List EdgeLoc) (v : EdgeLoc → ℚ) (g : ℕ → ℚ)
    (el : EdgeLoc) (hnd : (l.map EdgeLoc.edge_num).Nodup) (hel : el ∈ l) :
    (l.foldl (fun g el => Function.update g el.edge_num (v el)) g) el.edge_num
      = v el := by
  induction l generalizing g with
  | nil => cases hel
  | cons b t ih =>
    rw [List.map_cons, List.nodup_cons] at hnd
    rw [List.foldl_cons]
    rcases List.mem_cons.mp hel with h | h
    · subst h
      rw [foldl_update_not_mem t v _ el.edge_num
        (fun e he hek => absurd (List.mem_map.mpr ⟨e, he, hek⟩) hnd.1)]
      exact Function.update_same _ _ _
    · exact ih _ hnd.2 h

end Rotamer

/-- C3: after the sensitivity loops of `propagate_derivatives` (with the
source edge numbers of the three `edge_loc` lists pairwise distinct, as they
are when each interaction-graph edge was routed to exactly one holder),
every `edges11.edge_loc` entry's sensitivity is 1, every `edges13` entry's is
`nodes3.cur_belief(dim, edges13.edge_indices2[ne])`, and every `edges33`
entry's is `edges33.marginal(dim, ne)`. -/
theorem C3_propagate_sensitivities_values (s : Rotamer.Solver) (sens : ℕ → ℚ)
    (hnd : (((s.edges11.edge_loc ++ s.edges13.edge_loc) ++ s.edges33.edge_loc).map
      Rotamer.EdgeLoc.edge_num).Nodup) :
    (∀ el ∈ s.edges11.edge_loc,
      Rotamer.propagate_sensitivities s sens el.edge_num = 1) ∧
    (∀ el ∈ s.edges13.edge_loc,
      Rotamer.propagate_sensitivities s sens el.edge_num
        = s.nodes3.cur_belief el.dim (s.edges13.edge_indices2 el.ne)) ∧
    (∀ el ∈ s.edges33.edge_loc,
      Rotamer.propagate_sensitivities s sens el.edge_num
        = s.edges33.marginal el.dim el.ne) := by
  rw [List.map_append, List.map_append, List.nodup_append, List.nodup_append]
    at hnd
  obtain ⟨⟨h11, h13, hd1⟩, h33, hd2⟩ := hnd
  unfold Rotamer.propagate_sensitivities
  refine ⟨?_, ?_, ?_⟩
  · intro el hel
    rw [Rotamer.foldl_update_not_mem, Rotamer.foldl_update_not_mem]
    · exact Rotamer.foldl_update_mem _ _ _ el h11 hel
    · intro e he hek
      exact hd1 (List.mem_map_of_mem _ hel) (List.mem_map.mpr ⟨e, he, hek⟩)
    · intro e he hek
      refine hd2 ?_ (List.mem_map.mpr ⟨e, he, hek⟩)
      exact List.mem_append_left _ (List.mem_map_of_mem _ hel)
  · intro el hel
    rw [Rotamer.foldl_update_not_mem]
    · exact Rotamer.foldl_update_mem _ _ _ el h13 hel
    · intro e he hek
      refine hd2 ?_ (List.mem_map.mpr ⟨e, he, hek⟩)
      exact List.mem_append_right _ (List.mem_map_of_mem _ hel)
  · intro el hel
    exact Rotamer.foldl_update_mem _ _ _ el h33 hel

namespace Rotamer

/-- A tiny concrete `nodes1` used by the witnesses. -/
def sampleNode1 : NodeHolder := ⟨1, 1, fun _ _ => 1, fun _ _ => 1, fun _ _ => 1⟩

/-- A tiny concrete `nodes3` used by the witnesses. -/
def sampleNode3 : NodeHolder :=
  ⟨3, 2, fun _ _ => 1, fun r i => (r : ℚ) + 2 * i + 1, fun _ _ => 1⟩

/-- A concrete one-edge `edges11` used by the witnesses. -/
def sampleE11 : EdgeHolder :=
  ⟨1, 1, 1, fun _ _ => 2, fun _ _ => 1, fun _ _ => 1, fun _ _ => 0,
    fun _ => 0, fun _ => 0, [(edgeKey 0 0, 0)], [⟨0, 0, 0⟩]⟩

/-- A concrete one-edge `edges13` used by the witnesses. -/
def sampleE13 : EdgeHolder :=
  ⟨1, 3, 1, fun _ _ => 1, fun _ _ => 1, fun _ _ => 1, fun _ _ => 0,
    fun _ => 0, fun _ => 1, [(edgeKey 0 1, 0)], [⟨1, 2, 0⟩]⟩

/-- A concrete one-edge `edges33` used by the witnesses. -/
def sampleE33 : EdgeHolder :=
  ⟨3, 3, 1, fun _ _ => 1, fun _ _ => 1, fun _ _ => 1,
    fun j _ => (j : ℚ) + 1, fun _ => 0, fun _ => 1,
    [(edgeKey 0 1, 0)], [⟨2, 4, 0⟩]⟩

/-- A concrete solver state used by the witnesses. -/
def sampleSolver : Solver := ⟨sampleNode1, sampleNode3, sampleE11, sampleE13, sampleE33⟩

end Rotamer

/-- C3 witness. -/
theorem C3_witness :
    (∀ el ∈ Rotamer.sampleSolver.edges11.edge_loc,
      Rotamer.propagate_sensitivities Rotamer.sampleSolver (fun _ => 0) el.edge_num = 1) ∧
    (∀ el ∈ Rotamer.sampleSolver.edges13.edge_loc,
      Rotamer.propagate_sensitivities Rotamer.sampleSolver (fun _ => 0) el.edge_num
        = Rotamer.sampleSolver.nodes3.cur_belief el.dim
            (Rotamer.sampleSolver.edges13.edge_indices2 el.ne)) ∧
    (∀ el ∈ Rotamer.sampleSolver.edges33.edge_loc,
      Rotamer.propagate_sensitivities Rotamer.sampleSolver (fun _ => 0) el.edge_num
        = Rotamer.sampleSolver.edges33.marginal el.dim el.ne) :=
  C3_propagate_sensitivities_values Rotamer.sampleSolver (fun _ => 0) (by decide)

namespace Rotamer

/-- Normalizing a vector by the reciprocal of its sum gives total 1. -/
theorem sum_mul_rcp_vecSum (R : ℕ) (f : ℕ → ℚ) (h : vecSum R f ≠ 0) :
    ∑ r ∈ Finset.range R, f r * rcp (vecSum R f) = 1 := by
  rw [← Finset.sum_mul, rcp, one_div]
  exact mul_inv_cancel₀ (by simpa [vecSum] using h)

end Rotamer

/-- C7: after `NodeHolder::calculate_marginals<R>` (from componentwise
nonnegative beliefs with positive per-element sums) every in-range belief is
nonnegative and each element's beliefs sum exactly to 1; after
`EdgeHolder::calculate_marginals<R1,R2>` (with a nonzero unnormalized total
per edge) each edge's `R1*R2` marginal entries sum exactly to 1.  Exact
equality in `ℚ` in particular lies within the claim's `1e-6` float
tolerance. -/
theorem C7_calculate_marginals_normalized (R : ℕ) (nh : Rotamer.NodeHolder)
    (R1 R2 : ℕ) (nh1 nh2 : Rotamer.NodeHolder) (eh : Rotamer.EdgeHolder)
    (hb : ∀ r < R, ∀ ne < nh.n_elem, 0 ≤ nh.cur_belief r ne)
    (hs : ∀ ne < nh.n_elem, 0 < Rotamer.vecSum R fun r => nh.cur_belief r ne)
    (hes : ∀ ne < eh.n_edge,
      Rotamer.vecSum (R1 * R2) (Rotamer.edgeMarginalPre R1 R2 nh1 nh2 eh ne) ≠ 0) :
    (∀ ne < nh.n_elem,
      (∀ r < R, 0 ≤ (nh.calculate_marginals R).cur_belief r ne) ∧
      ∑ r ∈ Finset.range R, (nh.calculate_marginals R).cur_belief r ne = 1) ∧
    (∀ ne < eh.n_edge,
      ∑ j ∈ Finset.range (R1 * R2),
        (eh.calculate_marginals R1 R2 nh1 nh2).marginal j ne = 1) := by
  constructor
  · intro ne hne
    have hS := hs ne hne
    constructor
    · intro r hr
      have hval : (nh.calculate_marginals R).cur_belief r ne
          = nh.cur_belief r ne *
            Rotamer.rcp (Rotamer.vecSum R fun r' => nh.cur_belief r' ne) := by
        simp [Rotamer.NodeHolder.calculate_marginals, hr, hne]
      rw [hval, Rotamer.rcp]
      exact mul_nonneg (hb r hr ne hne)
        (le_of_lt (div_pos one_pos hS))
    · have hcongr : ∀ r ∈ Finset.range R,
          (nh.calculate_marginals R).cur_belief r ne
            = nh.cur_belief r ne *
              Rotamer.rcp (Rotamer.vecSum R fun r' => nh.cur_belief r' ne) := by
        intro r hr
        simp [Rotamer.NodeHolder.calculate_marginals, Finset.mem_range.mp hr, hne]
      rw [Finset.sum_congr rfl hcongr]
      exact Rotamer.sum_mul_rcp_vecSum R _ (ne_of_gt hS)
  · intro ne hne
    have hcongr : ∀ j ∈ Finset.range (R1 * R2),
        (eh.calculate_marginals R1 R2 nh1 nh2).marginal j ne
          = Rotamer.edgeMarginalPre R1 R2 nh1 nh2 eh ne j *
            Rotamer.rcp (Rotamer.vecSum (R1 * R2)
              (Rotamer.edgeMarginalPre R1 R2 nh1 nh2 eh ne)) := by
      intro j hj
      simp [Rotamer.EdgeHolder.calculate_marginals, Finset.mem_range.mp hj, hne]
    rw [Finset.sum_congr rfl hcongr]
    exact Rotamer.sum_mul_rcp_vecSum (R1 * R2) _ (hes ne hne)

/-- C7 witness. -/
theorem C7_witness :
    (∀ ne < Rotamer.sampleNode3.n_elem,
      (∀ r < 3, 0 ≤ (Rotamer.sampleNode3.calculate_marginals 3).cur_belief r ne) ∧
      ∑ r ∈ Finset.range 3,
        (Rotamer.sampleNode3.calculate_marginals 3).cur_belief r ne = 1) ∧
    (∀ ne < Rotamer.sampleE33.n_edge,
      ∑ j ∈ Finset.range (3 * 3),
        (Rotamer.sampleE33.calculate_marginals 3 3 Rotamer.sampleNode3
          Rotamer.sampleNode3).marginal j ne = 1) :=
  C7_calculate_marginals_normalized 3 Rotamer.sampleNode3 3 3
    Rotamer.sampleNode3 Rotamer.sampleNode3 Rotamer.sampleE33
    (by decide) (by decide) (by decide)

/-- C2: `calculate_energy_from_marginals` returns exactly the sum of the
`nodes1` and `nodes3` node free energies, the `-log prob(0,e)` terms of
`edges11`, and the `<3,3>` edge free energies of `edges33`; replacing the
`edges13` holder by anything leaves the value unchanged, so `edges13`
contributes no term. -/
theorem C2_energy_sum_no_edges13 (L : ℚ → ℚ) (s : Rotamer.Solver)
    (e13 : Rotamer.EdgeHolder) :
    Rotamer.calculate_energy_from_marginals L { s with edges13 := e13 }
      = (∑ nn ∈ Finset.range s.nodes1.n_elem, s.nodes1.node_free_energy 1 L nn)
        + (∑ nn ∈ Finset.range s.nodes3.n_elem, s.nodes3.node_free_energy 3 L nn)
        + (∑ ne ∈ Finset.range s.edges11.n_edge, -L (s.edges11.prob 0 ne))
        + (∑ ne ∈ Finset.range s.edges33.n_edge,
            s.edges33.edge_free_energy 3 3 L s.nodes3 s.nodes3 ne) := rfl

/-- C5 (the code, at the claim's failing input): a single bead whose id
decodes to `rot = 0`, `n_rot = 2` raises no error in `calculate_n_elem` —
it returns the per-class element counts `[0,0,1,0]` — and the bead loop of
`fill_holders` then dereferences the null `node_holders_matrix[2]`
(modelled as `none`): no synchronous error is thrown anywhere, contrary to
the claim that unsupported `n_rot` raises one. -/
theorem C5_nrot2_raises_no_error (nbit : ℕ) (h2 : 2 ≤ nbit) (E : ℚ → ℚ)
    (s : Rotamer.Solver) :
    Rotamer.calculate_n_elem nbit [2 * 2 ^ nbit] = Except.ok [0, 0, 1, 0] ∧
    Rotamer.fill_holders_beads E nbit [(2 * 2 ^ nbit, 0)] s = none := by
  have hlt : (2 : ℕ) < 2 ^ nbit := by
    calc (2 : ℕ) < 2 ^ 2 := by norm_num
      _ ≤ 2 ^ nbit := Nat.pow_le_pow_right (by norm_num) h2
  have hrot : Rotamer.decodeRot nbit (2 * 2 ^ nbit) = 0 := by
    simp [Rotamer.decodeRot, Nat.mul_mod_left]
  have hpos : 0 < 2 ^ nbit := by positivity
  have hnrot : Rotamer.decodeNRot nbit (2 * 2 ^ nbit) = 2 := by
    simp [Rotamer.decodeNRot, Nat.mul_div_cancel 2 hpos, Nat.mod_eq_of_lt hlt]
  have hres : Rotamer.decodeResidue nbit (2 * 2 ^ nbit) = 0 := by
    simp [Rotamer.decodeResidue, Nat.mul_div_cancel 2 hpos,
      Nat.div_eq_of_lt hlt]
  constructor
  · unfold Rotamer.calculate_n_elem
    rw [if_neg, if_neg]
    · have hrange : List.range Rotamer.UPPER_ROT = [0, 1, 2, 3] := rfl
      rw [hrange]
      simp [List.filter, hnrot, hres]
    · simp [hnrot, Rotamer.UPPER_ROT]
    · simp [hrot, hnrot]
  · simp [Rotamer.fill_holders_beads, Rotamer.node_holders_matrix, hnrot]

/-- C5 witness. -/
theorem C5_witness :
    Rotamer.calculate_n_elem 4 [2 * 2 ^ 4] = Except.ok [0, 0, 1, 0] ∧
    Rotamer.fill_holders_beads (fun _ => 1) 4 [(2 * 2 ^ 4, 0)]
      Rotamer.sampleSolver = none :=
  C5_nrot2_raises_no_error 4 (by decide) (fun _ => 1) Rotamer.sampleSolver

namespace Rotamer

/-- A one-edge `EdgeHolder` with `R1 = R2 = 1` whose old edge belief is
`[1, 2]`, used to exhibit the overwritten damping term. -/
def dampEdge : EdgeHolder :=
  ⟨1, 1, 1, fun _ _ => 1, fun _ _ => 1, fun i _ => if i = 0 then 1 else 2,
    fun _ _ => 0, fun _ => 0, fun _ => 0, [], []⟩

end Rotamer

/-- C1 (the code, at the claim's failing input): with damping `d = 1/2` on a
one-edge state whose old edge belief is `[1, 2]` and whose rescaled messages
are both `1`, `update_beliefs` stores `(1-d)·m = 1/2` into every component —
the initial `damping*old_belief` vector is overwritten by plain assignments —
while the claimed convex combination `(1-d)·m + d·old_belief` would be `3/2`
in the second component. -/
theorem C1_damping_term_overwritten :
    Rotamer.newEdgeBelief 1 1 (1 / 2) Rotamer.sampleNode1 Rotamer.sampleNode1
        Rotamer.dampEdge 0 0 = 1 / 2 ∧
    Rotamer.newEdgeBelief 1 1 (1 / 2) Rotamer.sampleNode1 Rotamer.sampleNode1
        Rotamer.dampEdge 0 1 = 1 / 2 ∧
    (1 - 1 / 2) * Rotamer.rescaledMsg2 1 1 Rotamer.sampleNode1
        Rotamer.dampEdge 0 0 + (1 / 2) * Rotamer.dampEdge.old_belief 1 0
      = 3 / 2 ∧
    Rotamer.newEdgeBelief 1 1 (1 / 2) Rotamer.sampleNode1 Rotamer.sampleNode1
        Rotamer.dampEdge 0 1
      ≠ (1 - 1 / 2) * Rotamer.rescaledMsg2 1 1 Rotamer.sampleNode1
          Rotamer.dampEdge 0 0 + (1 / 2) * Rotamer.dampEdge.old_belief 1 0 := by
  decide

namespace Rotamer

/-- The convergence loop returns within `max_iter - iter < fuel` steps when
the chunk size is positive, and its result satisfies the stopping condition
and stays a multiple of the chunk size. -/
theorem solveLoop_spec (tol damping : ℚ) (max_iter chunk : ℕ)
    (hc : 1 ≤ chunk) :
    ∀ fuel (st : NodeHolder × EdgeHolder) iter dev,
      max_iter - iter < fuel → chunk ∣ iter →
      ∃ out, solveLoop tol damping max_iter chunk fuel st iter dev = some out ∧
        (out.2.1 ≤ tol ∨ max_iter ≤ out.1) ∧ chunk ∣ out.1 := by
  intro fuel
  induction fuel with
  | zero => intro st iter dev hfuel _; omega
  | succ fuel ih =>
    intro st iter dev hfuel hdvd
    by_cases h : tol < dev ∧ iter < max_iter
    · obtain ⟨out, hout, hpost, hdd⟩ :=
        ih (chunkSweeps chunk damping st) (iter + chunk)
          (max (chunkSweeps chunk damping st).1.max_deviation
            (chunkSweeps chunk damping st).2.max_deviation)
          (by omega) (Dvd.dvd.add hdvd dvd_rfl)
      refine ⟨out, ?_, hpost, hdd⟩
      rw [solveLoop, if_pos h]
      exact hout
    · refine ⟨(iter, dev, st), ?_, ?_, hdvd⟩
      · rw [solveLoop, if_neg h]
      · rcases not_and_or.mp h with h' | h'
        · exact Or.inl (le_of_not_lt h')
        · exact Or.inr (le_of_not_lt h')

end Rotamer

/-- C4: for any configuration with `iteration_chunk_size ≥ 1` and any input
state, `solve_for_marginals` terminates (the model's fuel `max_iter + 1`
suffices and a result is produced), and the returned `(iter, max_deviation)`
satisfies `max_deviation ≤ tol` or `iter ≥ max_iter`, with `iter` a multiple
of `iteration_chunk_size`. -/
theorem C4_solve_for_marginals_terminates (damping tol : ℚ)
    (max_iter chunk : ℕ) (n3 : Rotamer.NodeHolder) (e33 : Rotamer.EdgeHolder)
    (hc : 1 ≤ chunk) :
    ∃ r : Rotamer.SolveResult,
      Rotamer.solve_for_marginals damping tol max_iter chunk n3 e33 = some r ∧
      (r.dev ≤ tol ∨ max_iter ≤ r.iter) ∧ chunk ∣ r.iter := by
  obtain ⟨out, hout, hpost, hdvd⟩ :=
    Rotamer.solveLoop_spec tol damping max_iter chunk hc (max_iter + 1)
      ((Rotamer.calculate_new_beliefs (1 / 10)
          (Rotamer.seedNode n3,
            { e33 with old_belief := fun _ _ => (1 : ℚ) })).1.swap_beliefs,
        (Rotamer.calculate_new_beliefs (1 / 10)
          (Rotamer.seedNode n3,
            { e33 with old_belief := fun _ _ => (1 : ℚ) })).2)
      0 (10 ^ 10) (by omega) (dvd_zero chunk)
  obtain ⟨iter, dev, st⟩ := out
  refine ⟨⟨iter, dev, st.1.calculate_marginals 3,
    st.2.calculate_marginals 3 3 st.1 st.1⟩, ?_, hpost, hdvd⟩
  unfold Rotamer.solve_for_marginals
  simp only [hout]

/-- C4 witness. -/
theorem C4_witness :
    ∃ r : Rotamer.SolveResult,
      Rotamer.solve_for_marginals 0 0 0 1 Rotamer.sampleNode3
        Rotamer.sampleE33 = some r ∧
      (r.dev ≤ 0 ∨ 0 ≤ r.iter) ∧ 1 ∣ r.iter :=
  C4_solve_for_marginals_terminates 0 0 0 1 Rotamer.sampleNode3
    Rotamer.sampleE33 (by decide)

namespace Rotamer

/-- The node-id pair of one `add_to_edge` call. -/
def pairOf (c : AddCall) : ℕ × ℕ := (c.id1, c.id2)

/-- The dedup key of one `add_to_edge` call. -/
def callKey (c : AddCall) : ℕ := edgeKey c.id1 c.id2

/-- Injectivity of the dedup key below `2^16`. -/
theorem edgeKey_inj (a1 a2 b1 b2 : ℕ) (ha1 : a1 < 2 ^ 16) (ha2 : a2 < 2 ^ 16)
    (hb1 : b1 < 2 ^ 16) (hb2 : b2 < 2 ^ 16)
    (h : edgeKey a1 a2 = edgeKey b1 b2) : a1 = b1 ∧ a2 = b2 := by
  unfold edgeKey at h
  have hlt : a1 * 2 ^ 16 + a2 < 2 ^ 32 := by
    have : a1 * 2 ^ 16 ≤ (2 ^ 16 - 1) * 2 ^ 16 := Nat.mul_le_mul_right _ (by omega)
    omega
  have hlt' : b1 * 2 ^ 16 + b2 < 2 ^ 32 := by
    have : b1 * 2 ^ 16 ≤ (2 ^ 16 - 1) * 2 ^ 16 := Nat.mul_le_mul_right _ (by omega)
    omega
  rw [Nat.mod_eq_of_lt hlt, Nat.mod_eq_of_lt hlt'] at h
  constructor
  · have := congrArg (· / 2 ^ 16) h
    simpa [Nat.add_mul_div_left, Nat.mul_add_div, Nat.div_eq_of_lt ha2,
      Nat.div_eq_of_lt hb2, Nat.mul_div_cancel] using by omega
  · omega

/-- The flat index `r1*R2 + r2` determines `(r1, r2)` when `r2, a2 < R2`. -/
theorem flat_index_inj (R2 r1 r2 a1 a2 : ℕ) (hr2 : r2 < R2) (ha2 : a2 < R2)
    (h : r1 * R2 + r2 = a1 * R2 + a2) : r1 = a1 ∧ r2 = a2 := by
  have h2 : r2 = a2 := by
    have hm : (r2 + r1 * R2) % R2 = (a2 + a1 * R2) % R2 := by
      rw [Nat.add_comm r2, Nat.add_comm a2, h]
    rwa [Nat.add_mul_mod_self_right, Nat.add_mul_mod_self_right,
      Nat.mod_eq_of_lt hr2, Nat.mod_eq_of_lt ha2] at hm
  subst h2
  have hR2 : 0 < R2 := by omega
  exact ⟨Nat.eq_of_mul_eq_mul_right hR2 (by omega), rfl⟩

/-- `List.lookup` on a cons cell, with propositional key equality. -/
theorem lookup_cons (k k' v : ℕ) (l : List (ℕ × ℕ)) :
    List.lookup k ((k', v) :: l) = if k = k' then some v else List.lookup k l := by
  by_cases h : k = k'
  · simp [List.lookup, h]
  · have hb : (k == k') = false := by simpa using h
    simp [List.lookup, hb, h]

/-- The product of the `prob_val`s of the calls in `cs` whose key is `k` and
whose rotamer pair is `(r1, r2)` — what one `prob` entry accumulates. -/
def prodKey (cs : List AddCall) (k r1 r2 : ℕ) : ℚ :=
  ((cs.filter fun c => callKey c = k ∧ c.rot1 = r1 ∧ c.rot2 = r2).map
    AddCall.prob_val).prod

/-- The product of the `prob_val`s of the calls in `cs` carrying the node-id
pair `p` and the rotamer pair `(r1, r2)`. -/
def prodPair (cs : List AddCall) (p : ℕ × ℕ) (r1 r2 : ℕ) : ℚ :=
  ((cs.filter fun c => c.id1 = p.1 ∧ c.id2 = p.2 ∧ c.rot1 = r1 ∧ c.rot2 = r2).map
    AddCall.prob_val).prod

/-- Appending one call multiplies the key-indexed product by that call's
`prob_val` exactly when key and rotamers match. -/
theorem prodKey_append (ps : List AddCall) (a : AddCall) (k r1 r2 : ℕ) :
    prodKey (ps ++ [a]) k r1 r2
      = prodKey ps k r1 r2 *
        (if callKey a = k ∧ a.rot1 = r1 ∧ a.rot2 = r2 then a.prob_val else 1) := by
  unfold prodKey
  rw [List.filter_append, List.map_append, List.prod_append]
  by_cases h : callKey a = k ∧ a.rot1 = r1 ∧ a.rot2 = r2 <;>
    simp [List.filter, h]

/-- A key absent from a call list has the empty product. -/
theorem prodKey_of_not_mem (ps : List AddCall) (k r1 r2 : ℕ)
    (h : k ∉ ps.map callKey) : prodKey ps k r1 r2 = 1 := by
  unfold prodKey
  have : ps.filter (fun c => callKey c = k ∧ c.rot1 = r1 ∧ c.rot2 = r2) = [] := by
    rw [List.filter_eq_nil_iff]
    intro c hc hdec
    exact h (List.mem_map.mpr ⟨c, hc, by
      simp only [decide_eq_true_eq] at hdec
      exact hdec.1⟩)
  rw [this]
  rfl

/-- `run_adds` over a snoc. -/
theorem run_adds_append (e0 : EdgeHolder) (ps : List AddCall) (a : AddCall) :
    e0.run_adds (ps ++ [a]) = (e0.run_adds ps).add_to_edge a := by
  unfold EdgeHolder.run_adds
  rw [List.foldl_append]
  rfl

/-- What `add_to_edge` does when the key is already in the dedup map. -/
theorem add_to_edge_some (eh : EdgeHolder) (c : AddCall) (idx : ℕ)
    (h : eh.nodes_to_edge.lookup (edgeKey c.id1 c.id2) = some idx) :
    eh.add_to_edge c = { eh with
      prob := fun j' i' =>
        if j' = c.rot1 * eh.n_rot2 + c.rot2 ∧ i' = idx then
          eh.prob j' i' * c.prob_val
        else eh.prob j' i',
      edge_loc := eh.edge_loc ++ [⟨c.ne, c.rot1 * eh.n_rot2 + c.rot2, idx⟩] } := by
  unfold EdgeHolder.add_to_edge
  rw [h]

/-- What `add_to_edge` does on a fresh key. -/
theorem add_to_edge_none (eh : EdgeHolder) (c : AddCall)
    (h : eh.nodes_to_edge.lookup (edgeKey c.id1 c.id2) = none) :
    eh.add_to_edge c = { eh with
      n_edge := eh.n_edge + 1,
      nodes_to_edge := (edgeKey c.id1 c.id2, eh.n_edge) :: eh.nodes_to_edge,
      edge_indices1 := Function.update eh.edge_indices1 eh.n_edge c.id1,
      edge_indices2 := Function.update eh.edge_indices2 eh.n_edge c.id2,
      prob := fun j' i' =>
        if j' = c.rot1 * eh.n_rot2 + c.rot2 ∧ i' = eh.n_edge then
          (if i' = eh.n_edge ∧ j' < eh.n_rot1 * eh.n_rot2 then 1
            else eh.prob j' i') * c.prob_val
        else if i' = eh.n_edge ∧ j' < eh.n_rot1 * eh.n_rot2 then 1
          else eh.prob j' i',
      edge_loc := eh.edge_loc ++ [⟨c.ne, c.rot1 * eh.n_rot2 + c.rot2, eh.n_edge⟩] } := by
  unfold EdgeHolder.add_to_edge
  rw [h]

end Rotamer

namespace Rotamer

/-- `r1*R2 + r2` lies inside the `R1*R2` table. -/
theorem flat_lt (R1 R2 r1 r2 : ℕ) (h1 : r1 < R1) (h2 : r2 < R2) :
    r1 * R2 + r2 < R1 * R2 :=
  calc r1 * R2 + r2 < r1 * R2 + R2 := by omega
    _ = (r1 + 1) * R2 := by ring
    _ ≤ R1 * R2 := Nat.mul_le_mul_right _ (by omega)

/-- What `fill_holders` guarantees for each `add_to_edge` call: ids fit in
16 bits (the dedup key's field width) and the rotamer indices are inside the
holder's alphabet sizes. -/
abbrev CallBounds (e0 : EdgeHolder) (c : AddCall) : Prop :=
  c.id1 < 2 ^ 16 ∧ c.id2 < 2 ^ 16 ∧ c.rot1 < e0.n_rot1 ∧ c.rot2 < e0.n_rot2

/-- Invariant of the `add_to_edge` fold: the dedup map is a bijection
between the keys of the processed calls and the allocated slots
`[0, n_edge)`, and each slot carries its first call's endpoint ids and the
accumulated per-rotamer-pair products. -/
structure AddInv (e0 : EdgeHolder) (ps : List AddCall) (s : EdgeHolder) :
    Prop where
  rot1_eq : s.n_rot1 = e0.n_rot1
  rot2_eq : s.n_rot2 = e0.n_rot2
  card_eq : s.n_edge = (ps.map callKey).toFinset.card
  lookup_mem : ∀ k i, s.nodes_to_edge.lookup k = some i →
    k ∈ ps.map callKey ∧ i < s.n_edge
  mem_lookup : ∀ k ∈ ps.map callKey, ∃ i, s.nodes_to_edge.lookup k = some i
  lookup_inj : ∀ k k' i, s.nodes_to_edge.lookup k = some i →
    s.nodes_to_edge.lookup k' = some i → k = k'
  slot_surj : ∀ i < s.n_edge, ∃ k, s.nodes_to_edge.lookup k = some i
  slot_spec : ∀ c ∈ ps, ∀ i, s.nodes_to_edge.lookup (callKey c) = some i →
    s.edge_indices1 i = c.id1 ∧ s.edge_indices2 i = c.id2 ∧
    ∀ r1 < e0.n_rot1, ∀ r2 < e0.n_rot2,
      s.prob (r1 * e0.n_rot2 + r2) i = prodKey ps (callKey c) r1 r2

end Rotamer

namespace Rotamer

/-- The fold of `add_to_edge` calls maintains `AddInv` from a reset holder,
for calls whose ids fit in 16 bits and whose rotamers are within range. -/
theorem addInv_run (e0 : EdgeHolder) (h0 : e0.n_edge = 0)
    (h0m : e0.nodes_to_edge = []) :
    ∀ ps : List AddCall, (∀ c ∈ ps, CallBounds e0 c) →
      AddInv e0 ps (e0.run_adds ps) := by
  intro ps
  induction ps using List.reverseRecOn with
  | nil =>
    intro _
    show AddInv e0 [] e0
    refine ⟨rfl, rfl, by simpa using h0, ?_, ?_, ?_, ?_, ?_⟩
    · intro k i hki
      rw [h0m] at hki
      simp [List.lookup] at hki
    · intro k hk
      simp at hk
    · intro k k' i hk _
      rw [h0m] at hk
      simp [List.lookup] at hk
    · intro i hi
      rw [h0] at hi
      omega
    · intro c hc
      simp at hc
  | append_singleton ps a ih =>
    intro hb
    have hbs : ∀ c ∈ ps, CallBounds e0 c :=
      fun c hc => hb c (List.mem_append_left _ hc)
    have hba : CallBounds e0 a :=
      hb a (List.mem_append_right _ (List.mem_singleton_self a))
    have IH := ih hbs
    rw [run_adds_append]
    rcases hcase : (e0.run_adds ps).nodes_to_edge.lookup (edgeKey a.id1 a.id2)
      with _ | idx
    · -- fresh key: a new slot `n_edge` is allocated
      have hcase' : (e0.run_adds ps).nodes_to_edge.lookup (callKey a) = none :=
        hcase
      have hnotmem : callKey a ∉ ps.map callKey := by
        intro hmem
        obtain ⟨i, hi⟩ := IH.mem_lookup _ hmem
        rw [hcase'] at hi
        cases hi
      have hEQ := add_to_edge_none (e0.run_adds ps) a hcase
      have hN : ((e0.run_adds ps).add_to_edge a).n_edge
          = (e0.run_adds ps).n_edge + 1 := by rw [hEQ]
      have hM : ((e0.run_adds ps).add_to_edge a).nodes_to_edge
          = (callKey a, (e0.run_adds ps).n_edge)
            :: (e0.run_adds ps).nodes_to_edge := by
        rw [hEQ]
        rfl
      have hI1 : ((e0.run_adds ps).add_to_edge a).edge_indices1
          = Function.update (e0.run_adds ps).edge_indices1
            (e0.run_adds ps).n_edge a.id1 := by rw [hEQ]
      have hI2 : ((e0.run_adds ps).add_to_edge a).edge_indices2
          = Function.update (e0.run_adds ps).edge_indices2
            (e0.run_adds ps).n_edge a.id2 := by rw [hEQ]
      have hP : ∀ j i', ((e0.run_adds ps).add_to_edge a).prob j i'
          = if j = a.rot1 * e0.n_rot2 + a.rot2
              ∧ i' = (e0.run_adds ps).n_edge then
              (if i' = (e0.run_adds ps).n_edge ∧ j < e0.n_rot1 * e0.n_rot2
                then 1 else (e0.run_adds ps).prob j i') * a.prob_val
            else if i' = (e0.run_adds ps).n_edge
                ∧ j < e0.n_rot1 * e0.n_rot2 then 1
              else (e0.run_adds ps).prob j i' := by
        intro j i'
        rw [hEQ, IH.rot1_eq, IH.rot2_eq]
      have hlook : ∀ k, ((e0.run_adds ps).add_to_edge a).nodes_to_edge.lookup k
          = if k = callKey a then some ((e0.run_adds ps).n_edge)
            else (e0.run_adds ps).nodes_to_edge.lookup k := by
        intro k
        rw [hM, lookup_cons]
      have hkeys : ((ps ++ [a]).map callKey).toFinset
          = insert (callKey a) (ps.map callKey).toFinset := by
        rw [List.map_append, List.toFinset_append]
        have h1 : ([a].map callKey).toFinset = {callKey a} := by simp
        rw [h1, Finset.union_comm, ← Finset.insert_eq]
      refine ⟨?_, ?_, ?_, ?_, ?_, ?_, ?_, ?_⟩
      · rw [hEQ]; exact IH.rot1_eq
      · rw [hEQ]; exact IH.rot2_eq
      · rw [hN, hkeys,
          Finset.card_insert_of_not_mem
            (fun hx => hnotmem (List.mem_toFinset.mp hx)), IH.card_eq]
      · intro k i hki
        rw [hlook k] at hki
        by_cases hk : k = callKey a
        · rw [if_pos hk] at hki
          have : i = (e0.run_adds ps).n_edge := (Option.some.inj hki).symm
          refine ⟨?_, by rw [hN]; omega⟩
          rw [List.map_append, hk]
          exact List.mem_append_right _ (by simp)
        · rw [if_neg hk] at hki
          obtain ⟨hmem, hlt⟩ := IH.lookup_mem k i hki
          refine ⟨?_, by rw [hN]; omega⟩
          rw [List.map_append]
          exact List.mem_append_left _ hmem
      · intro k hk
        rw [List.map_append] at hk
        rcases List.mem_append.mp hk with h | h
        · obtain ⟨i, hi⟩ := IH.mem_lookup k h
          have hne : k ≠ callKey a := fun he => hnotmem (he ▸ h)
          exact ⟨i, by rw [hlook k, if_neg hne]; exact hi⟩
        · have hx : k = callKey a := by simpa using h
          exact ⟨(e0.run_adds ps).n_edge, by rw [hlook k, if_pos hx]⟩
      · intro k k' i hk hk'
        rw [hlook k] at hk
        rw [hlook k'] at hk'
        by_cases h1 : k = callKey a <;> by_cases h2 : k' = callKey a
        · rw [h1, h2]
        · rw [if_pos h1] at hk
          rw [if_neg h2] at hk'
          have hi : i = (e0.run_adds ps).n_edge := (Option.some.inj hk).symm
          have := (IH.lookup_mem k' i hk').2
          omega
        · rw [if_neg h1] at hk
          rw [if_pos h2] at hk'
          have hi : i = (e0.run_adds ps).n_edge := (Option.some.inj hk').symm
          have := (IH.lookup_mem k i hk).2
          omega
        · rw [if_neg h1] at hk
          rw [if_neg h2] at hk'
          exact IH.lookup_inj k k' i hk hk'
      · intro i hi
        rw [hN] at hi
        by_cases hie : i = (e0.run_adds ps).n_edge
        · exact ⟨callKey a, by rw [hlook, if_pos rfl, hie]⟩
        · obtain ⟨k, hk⟩ := IH.slot_surj i (by omega)
          have hne : k ≠ callKey a := by
            intro he
            rw [he, hcase'] at hk
            cases hk
          exact ⟨k, by rw [hlook, if_neg hne]; exact hk⟩
      · intro c hc i hki
        rw [hlook] at hki
        rcases List.mem_append.mp hc with hcp | hca
        · have hkc : callKey c ≠ callKey a := by
            intro he
            exact hnotmem (he ▸ List.mem_map_of_mem callKey hcp)
          rw [if_neg hkc] at hki
          obtain ⟨hid1, hid2, hpr⟩ := IH.slot_spec c hcp i hki
          have hlt : i < (e0.run_adds ps).n_edge := (IH.lookup_mem _ _ hki).2
          have hne : i ≠ (e0.run_adds ps).n_edge := by omega
          refine ⟨?_, ?_, ?_⟩
          · rw [hI1, Function.update_noteq hne]
            exact hid1
          · rw [hI2, Function.update_noteq hne]
            exact hid2
          · intro r1 hr1 r2 hr2
            rw [hP, if_neg (fun h => hne h.2), if_neg (fun h => hne h.1),
              prodKey_append, if_neg (fun h => hkc h.1.symm), mul_one]
            exact hpr r1 hr1 r2 hr2
        · have hceq : c = a := by simpa using hca
          subst hceq
          rw [if_pos rfl] at hki
          have hie : i = (e0.run_adds ps).n_edge := (Option.some.inj hki).symm
          subst hie
          refine ⟨by rw [hI1, Function.update_same], by
            rw [hI2, Function.update_same], ?_⟩
          intro r1 hr1 r2 hr2
          have hflatlt : r1 * e0.n_rot2 + r2 < e0.n_rot1 * e0.n_rot2 :=
            flat_lt _ _ _ _ hr1 hr2
          rw [hP, prodKey_append, prodKey_of_not_mem ps _ r1 r2 hnotmem, one_mul]
          by_cases hm : c.rot1 = r1 ∧ c.rot2 = r2
          · rw [if_pos ⟨by rw [hm.1, hm.2], rfl⟩, if_pos ⟨rfl, hflatlt⟩,
              if_pos ⟨rfl, hm.1, hm.2⟩, one_mul]
          · have hfne : ¬(r1 * e0.n_rot2 + r2
                = c.rot1 * e0.n_rot2 + c.rot2
                ∧ (e0.run_adds ps).n_edge = (e0.run_adds ps).n_edge) := by
              rintro ⟨hfeq, -⟩
              obtain ⟨he1, he2⟩ := flat_index_inj e0.n_rot2 r1 r2 c.rot1 c.rot2
                hr2 hba.2.2.2 hfeq
              exact hm ⟨he1.symm, he2.symm⟩
            rw [if_neg hfne, if_pos ⟨rfl, hflatlt⟩,
              if_neg (fun h => hm ⟨h.2.1, h.2.2⟩)]
    · -- the key is already allocated: slot `idx` is reused
      have hcase' : (e0.run_adds ps).nodes_to_edge.lookup (callKey a) = some idx :=
        hcase
      have hka : callKey a ∈ ps.map callKey := (IH.lookup_mem _ _ hcase').1
      have hidx : idx < (e0.run_adds ps).n_edge := (IH.lookup_mem _ _ hcase').2
      have hEQ := add_to_edge_some (e0.run_adds ps) a idx hcase
      have hprobS : ∀ j i', ((e0.run_adds ps).add_to_edge a).prob j i'
          = if j = a.rot1 * e0.n_rot2 + a.rot2 ∧ i' = idx
            then (e0.run_adds ps).prob j i' * a.prob_val
            else (e0.run_adds ps).prob j i' := by
        intro j i'
        rw [hEQ, IH.rot2_eq]
      have hsame1 : ((e0.run_adds ps).add_to_edge a).edge_indices1
          = (e0.run_adds ps).edge_indices1 := by rw [hEQ]
      have hsame2 : ((e0.run_adds ps).add_to_edge a).edge_indices2
          = (e0.run_adds ps).edge_indices2 := by rw [hEQ]
      have hsameM : ((e0.run_adds ps).add_to_edge a).nodes_to_edge
          = (e0.run_adds ps).nodes_to_edge := by rw [hEQ]
      have hsameN : ((e0.run_adds ps).add_to_edge a).n_edge
          = (e0.run_adds ps).n_edge := by rw [hEQ]
      have hkeys : ((ps ++ [a]).map callKey).toFinset
          = (ps.map callKey).toFinset := by
        rw [List.map_append, List.toFinset_append]
        apply Finset.union_eq_left.mpr
        intro x hx
        have hx' : x = callKey a := by simpa using hx
        rw [hx']
        exact List.mem_toFinset.mpr hka
      refine ⟨?_, ?_, ?_, ?_, ?_, ?_, ?_, ?_⟩
      · rw [hEQ]; exact IH.rot1_eq
      · rw [hEQ]; exact IH.rot2_eq
      · rw [hsameN, hkeys]; exact IH.card_eq
      · intro k i hki
        rw [hsameM] at hki
        obtain ⟨hmem, hlt⟩ := IH.lookup_mem k i hki
        rw [hsameN]
        refine ⟨?_, hlt⟩
        rw [List.map_append]
        exact List.mem_append_left _ hmem
      · intro k hk
        rw [hsameM]
        rw [List.map_append] at hk
        rcases List.mem_append.mp hk with h | h
        · exact IH.mem_lookup k h
        · have hx : k = callKey a := by simpa using h
          exact ⟨idx, by rw [hx]; exact hcase'⟩
      · intro k k' i hk hk'
        rw [hsameM] at hk hk'
        exact IH.lookup_inj k k' i hk hk'
      · intro i hi
        rw [hsameN] at hi
        obtain ⟨k, hk⟩ := IH.slot_surj i hi
        exact ⟨k, by rw [hsameM]; exact hk⟩
      · intro c hc i hki
        rw [hsameM] at hki
        by_cases hkey : callKey c = callKey a
        · have hie : i = idx := by
            rw [hkey] at hki
            exact Option.some.inj (hki.symm.trans hcase')
          obtain ⟨c0, hc0, hkc0⟩ := List.mem_map.mp hka
          have hkc0' : callKey c0 = callKey c := hkc0.trans hkey.symm
          have hlk0 : (e0.run_adds ps).nodes_to_edge.lookup (callKey c0)
              = some i := by rw [hkc0']; exact hki
          obtain ⟨hid1, hid2, hpr⟩ := IH.slot_spec c0 hc0 i hlk0
          have hcb : CallBounds e0 c := hb c hc
          have hcb0 : CallBounds e0 c0 := hbs c0 hc0
          have hids := edgeKey_inj c0.id1 c0.id2 c.id1 c.id2 hcb0.1 hcb0.2.1
            hcb.1 hcb.2.1 hkc0'
          refine ⟨?_, ?_, ?_⟩
          · rw [hsame1, hid1]; exact hids.1
          · rw [hsame2, hid2]; exact hids.2
          · intro r1 hr1 r2 hr2
            rw [hprobS, prodKey_append]
            by_cases hm : a.rot1 = r1 ∧ a.rot2 = r2
            · rw [if_pos ⟨by rw [hm.1, hm.2], hie⟩,
                if_pos ⟨hkey.symm, hm.1, hm.2⟩,
                hpr r1 hr1 r2 hr2, hkc0']
            · have hfne : ¬(r1 * e0.n_rot2 + r2
                  = a.rot1 * e0.n_rot2 + a.rot2 ∧ i = idx) := by
                rintro ⟨hfeq, -⟩
                obtain ⟨he1, he2⟩ := flat_index_inj e0.n_rot2 r1 r2 a.rot1
                  a.rot2 hr2 hba.2.2.2 hfeq
                exact hm ⟨he1.symm, he2.symm⟩
              rw [if_neg hfne, if_neg (fun h => hm ⟨h.2.1, h.2.2⟩), mul_one,
                hpr r1 hr1 r2 hr2, hkc0']
        · have hne : i ≠ idx := by
            intro hie
            exact hkey (IH.lookup_inj (callKey c) (callKey a) idx
              (hie ▸ hki) hcase')
          have hcps : c ∈ ps := by
            rcases List.mem_append.mp hc with h | h
            · exact h
            · have : c = a := by simpa using h
              exact absurd (by rw [this]) hkey
          obtain ⟨hid1, hid2, hpr⟩ := IH.slot_spec c hcps i hki
          refine ⟨by rw [hsame1]; exact hid1, by rw [hsame2]; exact hid2, ?_⟩
          intro r1 hr1 r2 hr2
          rw [hprobS, prodKey_append, if_neg (fun h => hne h.2),
            if_neg (fun h => hkey h.1.symm), mul_one]
          exact hpr r1 hr1 r2 hr2

end Rotamer

namespace Rotamer

/-- Below the 16-bit id bound, the key-indexed product is the pair-indexed
product. -/
theorem prodKey_eq_prodPair (cs : List AddCall) (c : AddCall) (r1 r2 : ℕ)
    (hb : ∀ c' ∈ cs, c'.id1 < 2 ^ 16 ∧ c'.id2 < 2 ^ 16)
    (hc1 : c.id1 < 2 ^ 16) (hc2 : c.id2 < 2 ^ 16) :
    prodKey cs (callKey c) r1 r2 = prodPair cs (pairOf c) r1 r2 := by
  unfold prodKey prodPair
  have hf : cs.filter
        (fun c' => decide (callKey c' = callKey c ∧ c'.rot1 = r1 ∧ c'.rot2 = r2))
      = cs.filter (fun c' => decide (c'.id1 = (pairOf c).1
          ∧ c'.id2 = (pairOf c).2 ∧ c'.rot1 = r1 ∧ c'.rot2 = r2)) := by
    apply List.filter_congr
    intro c' hc'
    have hb' := hb c' hc'
    apply decide_eq_decide.mpr
    constructor
    · rintro ⟨hk, h1, h2⟩
      have hids := edgeKey_inj c'.id1 c'.id2 c.id1 c.id2 hb'.1 hb'.2 hc1 hc2 hk
      exact ⟨hids.1, hids.2, h1, h2⟩
    · rintro ⟨h1, h2, h3, h4⟩
      refine ⟨?_, h3, h4⟩
      unfold callKey
      rw [show c'.id1 = c.id1 from h1, show c'.id2 = c.id2 from h2]
  rw [hf]

/-- The per-run characterization the order-independence claim asserts:
`n_edge` counts the distinct node-id pairs, each call's pair occupies
exactly one slot, and any slot carrying a call's pair holds, at each
in-range flat index `r1*n_rot2 + r2`, the product of the `prob_val`s of the
calls with that pair and those rotamers. -/
def RunSpec (e0 : EdgeHolder) (cs : List AddCall) : Prop :=
  (e0.run_adds cs).n_edge = (cs.map pairOf).toFinset.card ∧
  (∀ c ∈ cs, ∃! i, i < (e0.run_adds cs).n_edge ∧
    (e0.run_adds cs).edge_indices1 i = c.id1 ∧
    (e0.run_adds cs).edge_indices2 i = c.id2) ∧
  (∀ c ∈ cs, ∀ i, (e0.run_adds cs).edge_indices1 i = c.id1 →
    (e0.run_adds cs).edge_indices2 i = c.id2 →
    i < (e0.run_adds cs).n_edge →
    ∀ r1 < e0.n_rot1, ∀ r2 < e0.n_rot2,
      (e0.run_adds cs).prob (r1 * e0.n_rot2 + r2) i
        = prodPair cs (pairOf c) r1 r2)

/-- `RunSpec` holds for every bounded call list from a reset holder. -/
theorem runSpec_of (e0 : EdgeHolder) (h0 : e0.n_edge = 0)
    (h0m : e0.nodes_to_edge = []) (cs : List AddCall)
    (hbnd : ∀ c ∈ cs, CallBounds e0 c) : RunSpec e0 cs := by
  have Inv := addInv_run e0 h0 h0m cs hbnd
  refine ⟨?_, ?_, ?_⟩
  · rw [Inv.card_eq]
    have hmm : cs.map callKey
        = (cs.map pairOf).map (fun p => edgeKey p.1 p.2) := by
      rw [List.map_map]
      rfl
    have himg : ((cs.map pairOf).map (fun p => edgeKey p.1 p.2)).toFinset
        = (cs.map pairOf).toFinset.image (fun p => edgeKey p.1 p.2) := by
      ext x
      simp
    rw [hmm, himg]
    apply Finset.card_image_of_injOn
    intro p hp q hq hpq
    obtain ⟨cp, hcp, hcpe⟩ := List.mem_map.mp (List.mem_toFinset.mp hp)
    obtain ⟨cq, hcq, hcqe⟩ := List.mem_map.mp (List.mem_toFinset.mp hq)
    have hbp := hbnd cp hcp
    have hbq := hbnd cq hcq
    have hp1 : p.1 < 2 ^ 16 := by rw [← hcpe]; exact hbp.1
    have hp2 : p.2 < 2 ^ 16 := by rw [← hcpe]; exact hbp.2.1
    have hq1 : q.1 < 2 ^ 16 := by rw [← hcqe]; exact hbq.1
    have hq2 : q.2 < 2 ^ 16 := by rw [← hcqe]; exact hbq.2.1
    have hids := edgeKey_inj p.1 p.2 q.1 q.2 hp1 hp2 hq1 hq2 hpq
    exact Prod.ext hids.1 hids.2
  · intro c hc
    have hkc : callKey c ∈ cs.map callKey := List.mem_map_of_mem callKey hc
    obtain ⟨i, hlk⟩ := Inv.mem_lookup _ hkc
    have hlt : i < (e0.run_adds cs).n_edge := (Inv.lookup_mem _ _ hlk).2
    obtain ⟨h1, h2, -⟩ := Inv.slot_spec c hc i hlk
    refine ⟨i, ⟨hlt, h1, h2⟩, ?_⟩
    rintro i' ⟨hlt', h1', h2'⟩
    obtain ⟨k', hk'⟩ := Inv.slot_surj i' hlt'
    obtain ⟨c', hc', hkc'⟩ := List.mem_map.mp (Inv.lookup_mem _ _ hk').1
    obtain ⟨h1'', h2'', -⟩ := Inv.slot_spec c' hc' i'
      (by rw [hkc']; exact hk')
    have hid1 : c'.id1 = c.id1 := h1''.symm.trans h1'
    have hid2 : c'.id2 = c.id2 := h2''.symm.trans h2'
    have hkeq : k' = callKey c := by
      rw [← hkc']
      unfold callKey
      rw [hid1, hid2]
    rw [hkeq] at hk'
    exact Option.some.inj (hk'.symm.trans hlk)
  · intro c hc i h1' h2' hlt' r1 hr1 r2 hr2
    obtain ⟨k', hk'⟩ := Inv.slot_surj i hlt'
    obtain ⟨c', hc', hkc'⟩ := List.mem_map.mp (Inv.lookup_mem _ _ hk').1
    obtain ⟨h1'', h2'', -⟩ := Inv.slot_spec c' hc' i
      (by rw [hkc']; exact hk')
    have hid1 : c'.id1 = c.id1 := h1''.symm.trans h1'
    have hid2 : c'.id2 = c.id2 := h2''.symm.trans h2'
    have hkeq : k' = callKey c := by
      rw [← hkc']
      unfold callKey
      rw [hid1, hid2]
    obtain ⟨-, -, hpr⟩ := Inv.slot_spec c hc i (by rw [← hkeq]; exact hk')
    rw [hpr r1 hr1 r2 hr2]
    exact prodKey_eq_prodPair cs c r1 r2
      (fun c'' hc'' => ⟨(hbnd c'' hc'').1, (hbnd c'' hc'').2.1⟩)
      (hbnd c hc).1 (hbnd c hc).2.1

/-- A freshly reset `(1,1)` edge holder. -/
def freshE11 : EdgeHolder :=
  ⟨1, 1, 0, fun _ _ => 1, fun _ _ => 1, fun _ _ => 1, fun _ _ => 0,
    fun _ => 0, fun _ => 0, [], []⟩

/-- First witness call: pair `(3, 5)`. -/
def cA : AddCall := ⟨0, 2, 3, 0, 5, 0⟩

/-- Second witness call: pair `(4, 5)`. -/
def cB : AddCall := ⟨1, 3, 4, 0, 5, 0⟩

end Rotamer

/-- C6 counterexample: the distinct pairs `(1,0)` and `(0,2^16)` share the
32-bit dedup key, so two `add_to_edge` calls from a reset holder allocate a
single slot although the input carries two distinct node-id pairs — the
claim's "one slot per pair, `n_edge` = number of distinct pairs" fails
without the 16-bit id bound. -/
theorem C6_counterexample_key_collision :
    (Rotamer.freshE11.run_adds
      [⟨0, 2, 1, 0, 0, 0⟩, ⟨1, 3, 0, 0, 2 ^ 16, 0⟩]).n_edge = 1 ∧
    ([(⟨0, 2, 1, 0, 0, 0⟩ : Rotamer.AddCall), ⟨1, 3, 0, 0, 2 ^ 16, 0⟩].map
      Rotamer.pairOf).toFinset.card = 2 := by
  decide

/-- C6 (amended with the id bound the dedup key needs and in-range rotamer
indices): for every call sequence from a reset holder and every permutation
of it, both runs allocate exactly one slot per distinct node-id pair with
`n_edge` equal to the number of distinct pairs, each such slot's `prob`
entry at flat index `r1*n_rot2+r2` is the product of the `prob_val`s of the
calls carrying that pair and those rotamers, and the two runs agree on
`n_edge` and on all those products. -/
theorem C6_add_to_edge_order_independent (e0 : Rotamer.EdgeHolder)
    (cs cs' : List Rotamer.AddCall) (h0 : e0.n_edge = 0)
    (h0m : e0.nodes_to_edge = [])
    (hbnd : ∀ c ∈ cs, Rotamer.CallBounds e0 c)
    (hperm : cs.Perm cs') :
    Rotamer.RunSpec e0 cs ∧ Rotamer.RunSpec e0 cs' ∧
    (e0.run_adds cs).n_edge = (e0.run_adds cs').n_edge ∧
    ∀ p r1 r2, Rotamer.prodPair cs p r1 r2 = Rotamer.prodPair cs' p r1 r2 := by
  have hbnd' : ∀ c ∈ cs', Rotamer.CallBounds e0 c :=
    fun c hc => hbnd c (hperm.mem_iff.mpr hc)
  have hs := Rotamer.runSpec_of e0 h0 h0m cs hbnd
  have hs' := Rotamer.runSpec_of e0 h0 h0m cs' hbnd'
  refine ⟨hs, hs', ?_, ?_⟩
  · rw [hs.1, hs'.1,
      List.toFinset_eq_of_perm _ _ (hperm.map Rotamer.pairOf)]
  · intro p r1 r2
    unfold Rotamer.prodPair
    exact ((hperm.filter _).map Rotamer.AddCall.prob_val).prod_eq

/-- C6 witness. -/
theorem C6_witness :
    Rotamer.RunSpec Rotamer.freshE11 [Rotamer.cA, Rotamer.cB] ∧
    Rotamer.RunSpec Rotamer.freshE11 [Rotamer.cB, Rotamer.cA] ∧
    (Rotamer.freshE11.run_adds [Rotamer.cA, Rotamer.cB]).n_edge
      = (Rotamer.freshE11.run_adds [Rotamer.cB, Rotamer.cA]).n_edge ∧
    ∀ p r1 r2, Rotamer.prodPair [Rotamer.cA, Rotamer.cB] p r1 r2
      = Rotamer.prodPair [Rotamer.cB, Rotamer.cA] p r1 r2 :=
  C6_add_to_edge_order_independent Rotamer.freshE11
    [Rotamer.cA, Rotamer.cB] [Rotamer.cB, Rotamer.cA] rfl rfl
    (by decide) (List.Perm.swap Rotamer.cB Rotamer.cA [])
